import Mathlib

/-!
Verification of the caption segmentation and timing engine of
subtitle_writer.py (class SubtitleWriter).

Times are modelled as rationals; Python floats are exact enough on the
inputs considered here, and the spec itself allows a 1e-3 tolerance.
Strings are Lean strings; Python character classes (re \s, \w) are
modelled by explicit classifiers covering ASCII plus the Latin-1/Kana/CJK
ranges used by the repository.
-/

/-- Python re \s on the characters relevant here (ASCII whitespace). -/
def isWS (c : Char) : Bool :=
  c == ' ' || c == '\t' || c == '\n' || c == '\r' || c == '\x0b' || c == '\x0c'

/-- Python re \w (word character): ASCII alphanumerics, underscore, and the
Latin-1 supplement / Latin extended, Kana and CJK-ideograph ranges that the
repository's inputs use. -/
def isWordChar (c : Char) : Bool :=
  c.isAlphanum || c == '_'
    || (0xC0 ≤ c.toNat && c.toNat ≤ 0x24F && c.toNat ≠ 0xD7 && c.toNat ≠ 0xF7)
    || (0x3040 ≤ c.toNat && c.toNat ≤ 0x30FF)
    || (0x4E00 ≤ c.toNat && c.toNat ≤ 0x9FFF)

/-- Python str.strip on the character list. -/
def stripChars (cs : List Char) : List Char :=
  ((cs.dropWhile isWS).reverse.dropWhile isWS).reverse

/-- Python str.strip. -/
def stripStr (s : String) : String := String.mk (stripChars s.data)

/-- Python str.split() (split on whitespace runs, no empty words):
accumulator holds the current word reversed. -/
def wordsOfAux (cur : List Char) : List Char → List (List Char)
  | [] => if cur = [] then [] else [cur.reverse]
  | c :: cs =>
      if isWS c then
        if cur = [] then wordsOfAux [] cs else cur.reverse :: wordsOfAux [] cs
      else wordsOfAux (c :: cur) cs

/-- Python str.split() on a string's characters. -/
def wordsOf (cs : List Char) : List (List Char) := wordsOfAux [] cs

/-- re.sub of one-or-more whitespace by a single space (first step of
_clean_text); the Bool records whether the previous character was whitespace. -/
def collapseWSAux (prevWS : Bool) : List Char → List Char
  | [] => []
  | c :: cs =>
      if isWS c then
        if prevWS then collapseWSAux true cs else ' ' :: collapseWSAux true cs
      else c :: collapseWSAux false cs

/-- The punctuation class of _clean_text's second and third substitutions. -/
def isLatinPunct (c : Char) : Bool :=
  c == ',' || c == '.' || c == '!' || c == '?' || c == ';' || c == ':'

/-- re.sub removing whitespace runs that immediately precede a punctuation
mark (second step of _clean_text); pend holds pending whitespace reversed. -/
def dropWSBeforePunct (pend : List Char) : List Char → List Char
  | [] => pend.reverse
  | c :: cs =>
      if isWS c then dropWSBeforePunct (c :: pend) cs
      else if isLatinPunct c then c :: dropWSBeforePunct [] cs
      else pend.reverse ++ c :: dropWSBeforePunct [] cs

/-- re.sub inserting a space between a punctuation mark and a directly
following word character (third step of _clean_text). -/
def spaceAfterPunct : List Char → List Char
  | [] => []
  | [c] => [c]
  | c :: d :: cs =>
      if isLatinPunct c && isWordChar d then c :: ' ' :: spaceAfterPunct (d :: cs)
      else c :: spaceAfterPunct (d :: cs)

/-- Writer configuration (constructor arguments of SubtitleWriter). -/
structure Config where
  max_line_chars : ℕ
  max_lines_per_caption : ℕ
  target_cps : ℚ
  min_duration : ℚ
  max_duration : ℚ
  merge_short_gap : ℚ
  merge_max_chars : ℕ
  cjk_mode : Bool
deriving DecidableEq, Repr

/-- An input segment; `stop` is the source's `end` (a Lean keyword). -/
structure Seg where
  start : ℚ
  stop : ℚ
  text : String
deriving DecidableEq, Repr

/-- An output caption with its allocated times and display text. -/
structure Caption where
  start : ℚ
  stop : ℚ
  text : String
deriving DecidableEq, Repr

/-- _clean_text: CJK mode only strips; Latin mode collapses whitespace,
removes whitespace before punctuation, inserts a space after punctuation
followed directly by a word character, then strips. -/
def cleanText (cfg : Config) (text : String) : String :=
  if cfg.cjk_mode then stripStr text
  else stripStr (String.mk (spaceAfterPunct (dropWSBeforePunct [] (collapseWSAux false text.data))))

/-- Python round on rationals: round half to even, as float round does. -/
def roundHalfEven (q : ℚ) : ℤ :=
  let f := ⌊q⌋
  let r := q - (f : ℚ)
  if r < 1/2 then f
  else if 1/2 < r then f + 1
  else if f % 2 = 0 then f else f + 1

/-- Decimal rendering of a natural, zero-padded on the left to width w. -/
def padZero (w : ℕ) (n : ℕ) : String :=
  let s := toString n
  String.mk (List.replicate (w - s.length) '0') ++ s

/-- _format_timestamp: clamp at zero, round to milliseconds, render
HH:MM:SS,mmm with zero-padded fields. -/
def formatTimestamp (seconds : ℚ) : String :=
  let total_ms : ℕ := (roundHalfEven (max 0 seconds * 1000)).toNat
  let h := total_ms / 3600000
  let rem := total_ms % 3600000
  let m := rem / 60000
  let rem2 := rem % 60000
  let s := rem2 / 1000
  let ms := rem2 % 1000
  padZero 2 h ++ ":" ++ padZero 2 m ++ ":" ++ padZero 2 s ++ "," ++ padZero 3 ms

/-- The character class of _punct_only, the pattern matching strings made
entirely of whitespace, non-word characters and underscores. -/
def isPunctOnlyChar (c : Char) : Bool := isWS c || !isWordChar c || c == '_'

/-- _punct_only: the whole (nonempty) string is whitespace/symbols/underscores. -/
def punctOnly (s : String) : Bool :=
  !s.data.isEmpty && s.data.all isPunctOnlyChar

/-- Characters skipped before the keyword in the music/noise patterns. -/
def isOpenSkip (c : Char) : Bool := isWS c || c == '[' || c == '('

/-- Characters allowed after the keyword in the music/noise patterns. -/
def isCloseSkip (c : Char) : Bool := isWS c || c == ']' || c == ')'

/-- Case-insensitive (ASCII lowering) literal match of ks against a prefix
of cs, returning the remainder on success. -/
def matchCI : List Char → List Char → Option (List Char)
  | [], cs => some cs
  | _ :: _, [] => none
  | k :: ks, c :: cs => if k.toLower = c.toLower then matchCI ks cs else none

/-- Anchored match of one of the patterns `[\s\[\(]* kw [\s\]\)]*` for kw
in the keyword list, case-insensitively (the shape of _music_pattern and
_noise_pattern). -/
def patternMatch (kws : List String) (s : String) : Bool :=
  let body := s.data.dropWhile isOpenSkip
  kws.any (fun k =>
    match matchCI k.data body with
    | some rest => rest.all isCloseSkip
    | none => false)

/-- Keywords of _music_pattern. -/
def musicKeywords : List String := ["♪", "♫", "music", "música", "音楽", "音乐"]

/-- Keywords of _noise_pattern. -/
def noiseKeywords : List String :=
  ["noise", "static", "silence", "inaudible", "unintelligible", "不清楚"]

/-- _should_skip_segment: empty, punctuation-only, music or noise pattern,
or empty after stripping. Note it takes no mode flag. -/
def shouldSkipSegment (text : String) : Bool :=
  text == "" || punctOnly text || patternMatch musicKeywords text
    || patternMatch noiseKeywords text || (stripStr text).length < 1

/-- The CJK punctuation set CJK_PUNCTS (CJK marks plus Latin equivalents). -/
def CJK_PUNCTS : List Char :=
  ['，', '。', '、', '？', '！', '；', '：', '…', '—', ',', '.', '?', '!', ';', ':']

/-- Membership of a token (a string) in CJK_PUNCTS: true exactly for the
one-character tokens whose character is in the set. -/
def isPunctTok (t : String) : Bool :=
  match t.data with
  | [c] => CJK_PUNCTS.contains c
  | _ => false

/-- The limit-sized hard cut used both by _soft_split_chunks (for an
oversized word at the start of a chunk) and by the final refinement loop of
_chunk_tokens_cjk. Fuel equals the list length; for limit at least 1 the
fuel is never exhausted and this is exactly the source's while loop. -/
def hardCutAux (limit : ℕ) : ℕ → List Char → List (List Char)
  | 0, cs => if cs = [] then [] else [cs]
  | fuel + 1, cs =>
      if limit < cs.length then cs.take limit :: hardCutAux limit fuel (cs.drop limit)
      else if cs = [] then [] else [cs]

/-- Hard cut of a character list into limit-sized pieces. -/
def hardCut (limit : ℕ) (cs : List Char) : List (List Char) :=
  hardCutAux limit cs.length cs

/-- Python " ".join on words given as character lists. -/
def joinSpace (ws : List (List Char)) : List Char :=
  (List.intersperse [' '] ws).flatten

/-- count_chars of _soft_split_chunks: total word length plus one separating
space per boundary (natural subtraction gives 0 for the empty list). -/
def count_chars (ws : List (List Char)) : ℕ :=
  (ws.map List.length).sum + (ws.length - 1)

/-- The word loop of _soft_split_chunks: greedily accumulate words while
count_chars stays within limit; on overflow, hard-cut the word if the
current chunk is empty, otherwise flush the current chunk and restart from
the overflowing word (which is kept whole even if it exceeds limit). -/
def softSplitAux (limit : ℕ) (current : List (List Char)) :
    List (List Char) → List (List Char)
  | [] => if current = [] then [] else [joinSpace current]
  | w :: ws =>
      if count_chars (current ++ [w]) ≤ limit then
        softSplitAux limit (current ++ [w]) ws
      else if current = [] then
        hardCut limit w ++ softSplitAux limit [] ws
      else
        joinSpace current :: softSplitAux limit [w] ws

/-- _soft_split_chunks. -/
def softSplitChunks (limit : ℕ) (text : String) : List String :=
  (softSplitAux limit [] (wordsOf text.data)).map String.mk

/-- Python "".join over tokens: concatenation of all their characters. -/
def strConcat (ts : List String) : String := String.mk (ts.map String.data).flatten

/-- The token loop of _chunk_tokens_cjk: flush the current chunk when the
token would overflow it; append the token when it fits within limit (a
longer token is dropped: the source's inner hard-cut branch is dead code,
being guarded by the opposite test); then break at punctuation, or when the
chunk is at least 80 percent full and the next token is punctuation or
absent. The 80-percent test is modelled exactly on rationals
(cur_len >= limit * 0.8 as 10 * cur_len >= 8 * limit); no claim proved here
depends on its boundary behaviour. -/
def chunkTokensCJKAux (limit : ℕ) (cur : List String) (cur_len : ℕ) :
    List String → List String
  | [] => if cur = [] then [] else [strConcat cur]
  | tok :: rest =>
      let tlen := tok.length
      let flushed : List String :=
        if limit < cur_len + tlen ∧ cur ≠ [] then [strConcat cur] else []
      let cur1 : List String := if limit < cur_len + tlen ∧ cur ≠ [] then [] else cur
      let len1 : ℕ := if limit < cur_len + tlen ∧ cur ≠ [] then 0 else cur_len
      let cur2 : List String := if tlen ≤ limit then cur1 ++ [tok] else cur1
      let len2 : ℕ := if tlen ≤ limit then len1 + tlen else len1
      let next_tok : String := rest.headD ""
      let near_full : Bool := decide (8 * limit ≤ 10 * len2)
      let brk : Bool := isPunctTok tok
        || (near_full && (isPunctTok next_tok || next_tok == ""))
      if brk ∧ cur2 ≠ [] then
        flushed ++ [strConcat cur2] ++ chunkTokensCJKAux limit [] 0 rest
      else
        flushed ++ chunkTokensCJKAux limit cur2 len2 rest

/-- _chunk_tokens_cjk: the token loop followed by the hard-cut refinement
of any chunk still over limit. -/
def chunkTokensCJK (limit : ℕ) (tokens : List String) : List String :=
  (chunkTokensCJKAux limit [] 0 tokens).flatMap
    (fun c => (hardCut limit c.data).map String.mk)

/-- _tokenize_cjk with the external segmenter (jieba) absent: its
in-source fallback list(text.strip()), one token per character. -/
def tokenizeCJK (text : String) : List String :=
  (stripStr text).data.map (fun c => String.mk [c])

/-- Update the last element of a list. -/
def updateLast (f : ℚ → ℚ) : List ℚ → List ℚ
  | [] => []
  | [x] => [f x]
  | x :: y :: xs => x :: updateLast f (y :: xs)

/-- _allocate_durations: desired per-chunk durations from length and CPS
clamped to the configured interval, scaled to the span, re-clamped, and
corrected so the total matches (evenly, then residual onto the last chunk)
when off by more than 1e-3. -/
def allocateDurations (cfg : Config) (start stop : ℚ) (chunks : List String) : List ℚ :=
  let total_dur := max 0 (stop - start)
  if total_dur ≤ 0 ∨ chunks = [] then []
  else
    let lens : List ℕ := chunks.map (fun c => max 1 c.length)
    let desired : List ℚ :=
      lens.map (fun l : ℕ => min cfg.max_duration (max cfg.min_duration ((l : ℚ) / cfg.target_cps)))
    let sum_desired := desired.sum
    if sum_desired = 0 then
      List.replicate chunks.length (total_dur / (chunks.length : ℚ))
    else
      let scale := total_dur / sum_desired
      let result := desired.map (fun d => max cfg.min_duration (min cfg.max_duration (d * scale)))
      let diff := total_dur - result.sum
      if 1/1000 < |diff| then
        let step := diff / (result.length : ℚ)
        let result2 := result.map
          (fun r => max cfg.min_duration (min cfg.max_duration (r + step)))
        updateLast (fun x => x + (total_dur - result2.sum)) result2
      else
        result

/-- The last index strictly below n holding a space: Python rfind(' ', 0, n). -/
def rfindSpaceBefore (cs : List Char) (n : ℕ) : Option ℕ :=
  (((cs.take n).enum.filter (fun p => p.2 == ' ')).map (fun p => p.1)).getLast?

/-- The inline two-line layout of the non-CJK branch of _split_and_time:
split at the last space before the midpoint if it is far enough right,
otherwise at the midpoint, stripping both parts. -/
def layoutLines (mlc : ℕ) (c : String) : String × String :=
  let cs := c.data
  let half := (cs.length + 1) / 2
  let pos : ℕ :=
    match rfindSpaceBefore cs half with
    | none => half
    | some p => if p < mlc / 2 then half else p
  (stripStr (String.mk (cs.take pos)), stripStr (String.mk (cs.drop pos)))

/-- The caption text of the non-CJK branch: one line if the second is
empty, otherwise the two lines joined by a line break. -/
def layoutLatin (mlc : ℕ) (c : String) : String :=
  let l := layoutLines mlc c
  if l.2 = "" then l.1 else l.1 ++ "\n" ++ l.2

/-- The caption-emitting loop shared by both branches of _split_and_time:
each caption starts at the running clock, ends at min(segment end, clock
plus allocated duration), and carries the branch's display text. -/
def buildSubs (txt : String → String) (stop : ℚ) (cur : ℚ) :
    List (String × ℚ) → List Caption
  | [] => []
  | (c, d) :: rest => ⟨cur, min stop (cur + d), txt c⟩ :: buildSubs txt stop (cur + d) rest

/-- The final forcing of the last caption's end to the segment end. -/
def setLastEnd (stop : ℚ) : List Caption → List Caption
  | [] => []
  | [c] => [{ c with stop := stop }]
  | c :: d :: cs => c :: setLastEnd stop (d :: cs)

/-- _split_and_time. -/
def splitAndTime (cfg : Config) (seg : Seg) : List Caption :=
  let duration := max 0 (seg.stop - seg.start)
  if duration ≤ 0 ∨ seg.text = "" then []
  else if cfg.cjk_mode then
    let tokens := tokenizeCJK seg.text
    let chunks := chunkTokensCJK (cfg.max_line_chars * cfg.max_lines_per_caption) tokens
    if chunks = [] then []
    else
      let durs := allocateDurations cfg seg.start seg.stop chunks
      setLastEnd seg.stop (buildSubs stripStr seg.stop seg.start (chunks.zip durs))
  else
    let chunks := softSplitChunks (cfg.max_line_chars * cfg.max_lines_per_caption) seg.text
    if chunks = [] then []
    else
      let durs := chunks.map
        (fun c => min cfg.max_duration (max ((c.length : ℚ) / cfg.target_cps) cfg.min_duration))
      let sum_raw := if durs.sum = 0 then (chunks.length : ℚ) else durs.sum
      let scale := duration / sum_raw
      setLastEnd seg.stop
        (buildSubs (layoutLatin cfg.max_line_chars) seg.stop seg.start
          (chunks.zip (durs.map (fun d => d * scale))))

/-- The filter-and-clean pass at the top of write_srt. -/
def cleanSegments (cfg : Config) (segs : List Seg) : List Seg :=
  segs.filterMap (fun s =>
    let t := cleanText cfg s.text
    if shouldSkipSegment t then none else some ⟨s.start, s.stop, t⟩)

/-- The merge loop of write_srt: absorb the next segment when the gap is
below merge_short_gap and the combined text stays below merge_max_chars,
joining texts by a space (Latin) or nothing (CJK); otherwise flush. -/
def mergeLoop (cfg : Config) (cur : Seg) : List Seg → List Seg
  | [] => [cur]
  | nxt :: rest =>
      if nxt.start - cur.stop < cfg.merge_short_gap
          ∧ cur.text.length + nxt.text.length < cfg.merge_max_chars then
        mergeLoop cfg
          ⟨cur.start, nxt.stop,
            cur.text ++ (if cfg.cjk_mode then "" else " ") ++ nxt.text⟩ rest
      else cur :: mergeLoop cfg nxt rest

/-- The merge pass of write_srt. -/
def mergeSegments (cfg : Config) : List Seg → List Seg
  | [] => []
  | c :: cs => mergeLoop cfg c cs

/-- write_srt up to serialization: clean and filter, merge, then split and
time every merged segment. -/
def processSegments (cfg : Config) (segs : List Seg) : List Caption :=
  (mergeSegments cfg (cleanSegments cfg segs)).flatMap (splitAndTime cfg)

/-! ### Named configurations used in concrete runs -/

/-- The constructor's default configuration (Latin). -/
def cfgDefault : Config := ⟨42, 2, 15, 1, 6, 1, 200, false⟩

/-- A one-character-per-line CJK configuration with unit durations. -/
def cfgCJK1 : Config := ⟨1, 1, 15, 1, 1, 1, 200, true⟩

/-- A narrow Latin configuration (6 characters per line, 2 lines). -/
def cfgNarrow : Config := ⟨6, 2, 15, 1, 6, 1, 200, false⟩

/-- A Latin configuration with a slow reading target and short captions
(target_cps 1, max_duration 1). -/
def cfgSlow : Config := ⟨42, 2, 1, 1, 1, 1, 200, false⟩

/-- The merge-scenario configuration (merge_short_gap 0.2). -/
def cfgMerge : Config := ⟨42, 2, 15, 1, 6, 1/5, 200, false⟩

/-- Split a character list at line breaks (the line structure of a
caption's display text). -/
def splitLinesAux (cur : List Char) : List Char → List (List Char)
  | [] => [cur.reverse]
  | c :: cs =>
      if c = '\n' then cur.reverse :: splitLinesAux [] cs
      else splitLinesAux (c :: cur) cs

/-- The display lines of a caption's text. -/
def capLines (c : Caption) : List String := (splitLinesAux [] c.text.data).map String.mk

/-- The spec's caption-level reconstruction reading: join the caption texts
with spaces, turn line breaks into spaces, collapse whitespace and trim. -/
def reconstructText (caps : List Caption) : String :=
  stripStr (String.mk (collapseWSAux false
    ((String.intercalate " " (caps.map Caption.text)).data.map
      (fun c => if c == '\n' then ' ' else c))))

/-- The caption invariants claimed for a segment split into captions: at
least one caption, the first starts at the segment start, the last ends at
the segment end, every caption lies inside the segment span with start at
most end, and captions are time-ordered and non-overlapping. -/
def CaptionInvariants (seg : Seg) (caps : List Caption) : Prop :=
  caps ≠ []
    ∧ (∃ c0 rest, caps = c0 :: rest ∧ c0.start = seg.start)
    ∧ (∀ l, caps.getLast? = some l → l.stop = seg.stop)
    ∧ (∀ c ∈ caps, seg.start ≤ c.start ∧ c.start ≤ c.stop ∧ c.stop ≤ seg.stop)
    ∧ List.Chain' (fun a b => a.stop ≤ b.start) caps

/-! ### Helper lemmas -/

theorem buildSubs_length (txt : String → String) (stop : ℚ) :
    ∀ (ps : List (String × ℚ)) (cur : ℚ), (buildSubs txt stop cur ps).length = ps.length := by
  intro ps
  induction ps with
  | nil => intro cur; rfl
  | cons p ps ih => intro cur; obtain ⟨c, d⟩ := p; simp [buildSubs, ih]

theorem setLastEnd_length (stop : ℚ) :
    ∀ l : List Caption, (setLastEnd stop l).length = l.length := by
  intro l
  induction l with
  | nil => rfl
  | cons c cs ih =>
    cases cs with
    | nil => rfl
    | cons d ds => simp [setLastEnd] at ih ⊢; exact ih

theorem buildSubs_map_text (txt : String → String) (stop : ℚ) :
    ∀ (ps : List (String × ℚ)) (cur : ℚ),
      (buildSubs txt stop cur ps).map Caption.text = ps.map (fun p => txt p.1) := by
  intro ps
  induction ps with
  | nil => intro cur; rfl
  | cons p ps ih => intro cur; obtain ⟨c, d⟩ := p; simp [buildSubs, ih]

theorem setLastEnd_map_text (stop : ℚ) :
    ∀ l : List Caption, (setLastEnd stop l).map Caption.text = l.map Caption.text := by
  intro l
  induction l with
  | nil => rfl
  | cons c cs ih =>
    cases cs with
    | nil => rfl
    | cons d ds => simp [setLastEnd] at ih ⊢; exact ih

theorem updateLast_sum (a : ℚ) :
    ∀ l : List ℚ, l ≠ [] → (updateLast (fun x => x + a) l).sum = l.sum + a := by
  intro l
  induction l with
  | nil => intro h; exact absurd rfl h
  | cons x xs ih =>
    intro _
    cases xs with
    | nil => simp [updateLast]
    | cons y ys =>
      have := ih (by simp)
      simp [updateLast] at this ⊢
      rw [this]; ring

theorem updateLast_length (f : ℚ → ℚ) :
    ∀ l : List ℚ, (updateLast f l).length = l.length := by
  intro l
  induction l with
  | nil => rfl
  | cons x xs ih =>
    cases xs with
    | nil => rfl
    | cons y ys => simp [updateLast] at ih ⊢; exact ih

/-- Structural description of the caption-emitting loop followed by the
final end-forcing, under nonnegative allocated durations whose running sum
never passes the segment end: the durations of the emitted captions sum
exactly to the remaining span, the first caption starts at the clock, all
captions stay inside the span with start at most end, they chain without
overlap, and the last ends exactly at the segment end. -/
theorem buildTimed_spec (txt : String → String) (stop : ℚ) :
    ∀ (ps : List (String × ℚ)) (cur : ℚ), ps ≠ [] →
      (∀ p ∈ ps, 0 ≤ p.2) → cur + (ps.map Prod.snd).sum ≤ stop →
      ((setLastEnd stop (buildSubs txt stop cur ps)).map (fun c => c.stop - c.start)).sum
          = stop - cur
        ∧ (∃ c0 rest, setLastEnd stop (buildSubs txt stop cur ps) = c0 :: rest
            ∧ c0.start = cur)
        ∧ (∀ c ∈ setLastEnd stop (buildSubs txt stop cur ps),
            cur ≤ c.start ∧ c.start ≤ c.stop ∧ c.stop ≤ stop)
        ∧ List.Chain' (fun a b => a.stop ≤ b.start)
            (setLastEnd stop (buildSubs txt stop cur ps))
        ∧ (∀ l, (setLastEnd stop (buildSubs txt stop cur ps)).getLast? = some l →
            l.stop = stop) := by
  intro ps
  induction ps with
  | nil => intro cur h; exact absurd rfl h
  | cons p ps ih =>
    obtain ⟨c, d⟩ := p
    intro cur _ hnn hsum
    have hd : 0 ≤ d := hnn (c, d) (by simp)
    cases ps with
    | nil =>
      simp only [buildSubs, setLastEnd]
      simp only [List.map_cons, List.map_nil, List.sum_cons, List.sum_nil]
      have hcd : cur ≤ stop := by
        simp only [List.map_cons, List.map_nil, List.sum_cons, List.sum_nil] at hsum
        linarith
      refine ⟨by ring, ⟨_, [], rfl, rfl⟩, ?_, by simp, ?_⟩
      · intro cap hc
        simp only [List.mem_singleton] at hc
        subst hc
        exact ⟨le_refl _, hcd, le_refl _⟩
      · intro l hl
        simp only [List.getLast?_singleton, Option.some.injEq] at hl
        subst hl
        rfl
    | cons q qs =>
      have hnn2 : ∀ p ∈ q :: qs, 0 ≤ p.2 := fun p hp => hnn p (List.mem_cons_of_mem _ hp)
      have hrestnn : 0 ≤ ((q :: qs).map Prod.snd).sum := by
        apply List.sum_nonneg
        intro x hx
        obtain ⟨p, hp, rfl⟩ := List.mem_map.mp hx
        exact hnn2 p hp
      have hsum2 : (cur + d) + ((q :: qs).map Prod.snd).sum ≤ stop := by
        simp only [List.map_cons, List.sum_cons] at hsum ⊢
        linarith
      have hcd : cur + d ≤ stop := by linarith
      have hmin : min stop (cur + d) = cur + d := min_eq_right hcd
      obtain ⟨ihsum, ⟨c0, rest, hrest, hc0⟩, ihmem, ihchain, ihlast⟩ :=
        ih (cur + d) (by simp) hnn2 hsum2
      have hbuild : buildSubs txt stop cur ((c, d) :: q :: qs)
          = ⟨cur, min stop (cur + d), txt c⟩ :: buildSubs txt stop (cur + d) (q :: qs) := rfl
      have hcons : setLastEnd stop (buildSubs txt stop cur ((c, d) :: q :: qs))
          = ⟨cur, min stop (cur + d), txt c⟩
              :: setLastEnd stop (buildSubs txt stop (cur + d) (q :: qs)) := by
        rw [hbuild]
        obtain ⟨e, d2⟩ := q
        rfl
      rw [hcons]
      refine ⟨?_, ⟨_, _, rfl, rfl⟩, ?_, ?_, ?_⟩
      · simp only [List.map_cons, List.sum_cons, ihsum, hmin]
        ring
      · intro cap hc
        rcases List.mem_cons.mp hc with h | h
        · subst h
          refine ⟨le_refl _, ?_, ?_⟩
          · simp only [hmin]; linarith
          · simp only [hmin]; linarith
        · obtain ⟨h1, h2, h3⟩ := ihmem cap h
          exact ⟨by linarith, h2, h3⟩
      · rw [List.chain'_cons']
        constructor
        · intro hd2 hh
          rw [hrest] at hh
          simp only [List.head?_cons, Option.mem_def, Option.some.injEq] at hh
          subst hh
          simp only [hmin, hc0, le_refl]
        · exact ihchain
      · intro l hl
        rw [hrest, List.getLast?_cons_cons] at hl
        exact ihlast l (by rw [hrest]; exact hl)

theorem softSplitChunks_empty (limit : ℕ) : softSplitChunks limit "" = [] := rfl

/-- Unfolding of the non-CJK branch of _split_and_time for a segment with
positive span and a nonempty chunk list, with the intermediate lists of the
source named by hypotheses. -/
theorem splitAndTime_latin_eq (cfg : Config) (seg : Seg) (chunks : List String)
    (durs : List ℚ) (sum_raw scale : ℚ)
    (hcjk : cfg.cjk_mode = false) (hdur : 0 < seg.stop - seg.start)
    (hchunks : softSplitChunks (cfg.max_line_chars * cfg.max_lines_per_caption) seg.text
      = chunks)
    (hch : chunks ≠ [])
    (hdurs : durs = chunks.map
      (fun c => min cfg.max_duration (max ((c.length : ℚ) / cfg.target_cps) cfg.min_duration)))
    (hsumraw : sum_raw = if durs.sum = 0 then (chunks.length : ℚ) else durs.sum)
    (hscale : scale = max 0 (seg.stop - seg.start) / sum_raw) :
    splitAndTime cfg seg =
      setLastEnd seg.stop (buildSubs (layoutLatin cfg.max_line_chars) seg.stop seg.start
        (chunks.zip (durs.map (fun d => d * scale)))) := by
  have htext : seg.text ≠ "" := by
    intro h
    rw [h, softSplitChunks_empty] at hchunks
    exact hch hchunks.symm
  have hguard : ¬(max 0 (seg.stop - seg.start) ≤ 0 ∨ seg.text = "") := by
    rintro (h | h)
    · exact absurd (le_trans (le_max_right 0 _) h) (not_le.mpr hdur)
    · exact htext h
  subst hdurs hsumraw hscale
  simp only [splitAndTime, hcjk, Bool.false_eq_true, if_false]
  rw [if_neg hguard, hchunks, if_neg hch]

theorem chunkTokensCJK_empty (limit : ℕ) : chunkTokensCJK limit (tokenizeCJK "") = [] := rfl

/-- Unfolding of the CJK branch of _split_and_time for a segment with
positive span and a nonempty chunk list. -/
theorem splitAndTime_cjk_eq (cfg : Config) (seg : Seg) (chunks : List String)
    (hcjk : cfg.cjk_mode = true) (hdur : 0 < seg.stop - seg.start)
    (hchunks : chunkTokensCJK (cfg.max_line_chars * cfg.max_lines_per_caption)
      (tokenizeCJK seg.text) = chunks)
    (hch : chunks ≠ []) :
    splitAndTime cfg seg =
      setLastEnd seg.stop (buildSubs stripStr seg.stop seg.start
        (chunks.zip (allocateDurations cfg seg.start seg.stop chunks))) := by
  have htext : seg.text ≠ "" := by
    intro h
    rw [h, chunkTokensCJK_empty] at hchunks
    exact hch hchunks.symm
  have hguard : ¬(max 0 (seg.stop - seg.start) ≤ 0 ∨ seg.text = "") := by
    rintro (h | h)
    · exact absurd (le_trans (le_max_right 0 _) h) (not_le.mpr hdur)
    · exact htext h
  simp only [splitAndTime, hcjk, if_true]
  rw [if_neg hguard, hchunks, if_neg hch]

/-- Unfolding of _allocate_durations for a positive span and nonempty
chunk list, with the source's intermediate lists named by hypotheses. -/
theorem allocateDurations_eq (cfg : Config) (start stop : ℚ) (chunks : List String)
    (desired result : List ℚ)
    (hdur : 0 < stop - start) (hch : chunks ≠ [])
    (hdes : desired = (chunks.map (fun c => max 1 c.length)).map
      (fun l : ℕ => min cfg.max_duration (max cfg.min_duration ((l : ℚ) / cfg.target_cps))))
    (hres : result = desired.map (fun d => max cfg.min_duration (min cfg.max_duration
      (d * (max 0 (stop - start) / desired.sum))))) :
    allocateDurations cfg start stop chunks =
      if desired.sum = 0 then
        List.replicate chunks.length (max 0 (stop - start) / (chunks.length : ℚ))
      else if 1/1000 < |max 0 (stop - start) - result.sum| then
        updateLast
          (fun x => x + (max 0 (stop - start)
            - (result.map (fun r => max cfg.min_duration (min cfg.max_duration
                (r + (max 0 (stop - start) - result.sum) / (result.length : ℚ))))).sum))
          (result.map (fun r => max cfg.min_duration (min cfg.max_duration
            (r + (max 0 (stop - start) - result.sum) / (result.length : ℚ)))))
      else result := by
  have hguard : ¬(max 0 (stop - start) ≤ 0 ∨ chunks = []) := by
    rintro (h | h)
    · exact absurd (le_trans (le_max_right 0 _) h) (not_le.mpr hdur)
    · exact hch h
  subst hdes hres
  simp only [allocateDurations]
  rw [if_neg hguard]

/-- _allocate_durations returns one duration per chunk. -/
theorem allocateDurations_length (cfg : Config) (start stop : ℚ) (chunks : List String)
    (hdur : 0 < stop - start) (hch : chunks ≠ []) :
    (allocateDurations cfg start stop chunks).length = chunks.length := by
  rw [allocateDurations_eq cfg start stop chunks _ _ hdur hch rfl rfl]
  split
  · simp
  · split
    · simp only [updateLast_length, List.length_map]
    · simp only [List.length_map]

/-- The total of the allocated durations matches the span within the
source's 1e-3 tolerance (exactly, whenever the final correction runs). -/
theorem allocateDurations_sum_close (cfg : Config) (start stop : ℚ) (chunks : List String)
    (hdur : 0 < stop - start) (hch : chunks ≠ []) :
    |(allocateDurations cfg start stop chunks).sum - (stop - start)| ≤ 1/1000 := by
  have htotal : max 0 (stop - start) = stop - start := max_eq_right hdur.le
  rw [allocateDurations_eq cfg start stop chunks _ _ hdur hch rfl rfl]
  have hn : (chunks.length : ℚ) ≠ 0 := by
    simp only [ne_eq, Nat.cast_eq_zero, List.length_eq_zero]
    exact hch
  split
  · rw [List.sum_replicate, nsmul_eq_mul, mul_div_cancel₀ _ hn, htotal]
    simp
  · split
    · rw [updateLast_sum]
      · rw [htotal]
        simp
      · simp only [ne_eq, List.map_eq_nil_iff, List.map_eq_nil_iff]
        intro h
        rw [h] at hch
        simp at hch
    · rename_i hle
      rw [not_lt] at hle
      rw [htotal] at hle ⊢
      rw [abs_sub_comm]
      exact hle

/-- In the non-CJK branch, with nonnegative configured duration bounds and
a positive span, the emitted captions conserve the span exactly and satisfy
all the claimed timing invariants. -/
theorem splitAndTime_latin_spec (cfg : Config) (seg : Seg)
    (hcjk : cfg.cjk_mode = false) (hmin : 0 ≤ cfg.min_duration) (hmax : 0 ≤ cfg.max_duration)
    (hdur : 0 < seg.stop - seg.start)
    (hch : softSplitChunks (cfg.max_line_chars * cfg.max_lines_per_caption) seg.text ≠ []) :
    ((splitAndTime cfg seg).map (fun c => c.stop - c.start)).sum = seg.stop - seg.start
      ∧ CaptionInvariants seg (splitAndTime cfg seg) := by
  rw [splitAndTime_latin_eq cfg seg _ _ _ _ hcjk hdur rfl hch rfl rfl rfl]
  set C := softSplitChunks (cfg.max_line_chars * cfg.max_lines_per_caption) seg.text with hC
  set D := C.map
    (fun c => min cfg.max_duration (max ((c.length : ℚ) / cfg.target_cps) cfg.min_duration))
    with hD
  set R : ℚ := if D.sum = 0 then (C.length : ℚ) else D.sum with hR
  set S : ℚ := max 0 (seg.stop - seg.start) / R with hS
  set M := D.map (fun d => d * S) with hM
  have hDnn : ∀ d ∈ D, 0 ≤ d := by
    intro d hd
    rw [hD] at hd
    obtain ⟨c, _, rfl⟩ := List.mem_map.mp hd
    exact le_min hmax (le_max_of_le_right hmin)
  have hDsum : 0 ≤ D.sum := List.sum_nonneg hDnn
  have hRnn : 0 ≤ R := by
    rw [hR]
    split
    · exact Nat.cast_nonneg _
    · exact hDsum
  have hSnn : 0 ≤ S := div_nonneg (le_max_left 0 _) hRnn
  have hMlen : M.length = C.length := by rw [hM, hD]; simp
  have hmax0 : max 0 (seg.stop - seg.start) = seg.stop - seg.start := max_eq_right hdur.le
  have hMsum : M.sum = D.sum * S := by
    rw [hM]
    have := List.sum_map_mul_right D id S
    simpa using this
  have hps : (C.zip M).map Prod.snd = M := List.map_snd_zip C M (le_of_eq hMlen)
  have hne : C.zip M ≠ [] := by
    intro h
    apply hch
    have hlen := congrArg List.length h
    rw [List.length_zip, hMlen, min_self] at hlen
    exact List.eq_nil_of_length_eq_zero hlen
  have hnn : ∀ p ∈ C.zip M, 0 ≤ p.2 := by
    intro p hp
    have hmem := (List.of_mem_zip hp).2
    rw [hM] at hmem
    obtain ⟨d, hd, heq⟩ := List.mem_map.mp hmem
    rw [← heq]
    exact mul_nonneg (hDnn d hd) hSnn
  have hsum : seg.start + ((C.zip M).map Prod.snd).sum ≤ seg.stop := by
    rw [hps, hMsum]
    by_cases h0 : D.sum = 0
    · rw [h0, zero_mul]
      linarith
    · rw [hS, hR, if_neg h0, hmax0, mul_comm, div_mul_cancel₀ _ h0]
      linarith
  obtain ⟨hsum', ⟨c0, rest, hrest, hc0⟩, hmem, hchain, hlast⟩ :=
    buildTimed_spec (layoutLatin cfg.max_line_chars) seg.stop (C.zip M) seg.start hne hnn hsum
  refine ⟨hsum', ?_, ⟨c0, rest, hrest, hc0⟩, hlast, hmem, hchain⟩
  rw [hrest]
  simp

/-- In the CJK branch, whenever the allocated durations are nonnegative and
their running total stays within the span, the emitted captions satisfy all
the claimed timing invariants. -/
theorem splitAndTime_cjk_spec (cfg : Config) (seg : Seg)
    (hcjk : cfg.cjk_mode = true) (hdur : 0 < seg.stop - seg.start)
    (hch : chunkTokensCJK (cfg.max_line_chars * cfg.max_lines_per_caption)
      (tokenizeCJK seg.text) ≠ [])
    (hnnd : ∀ d ∈ allocateDurations cfg seg.start seg.stop
      (chunkTokensCJK (cfg.max_line_chars * cfg.max_lines_per_caption)
        (tokenizeCJK seg.text)), 0 ≤ d)
    (hsum : seg.start + (allocateDurations cfg seg.start seg.stop
      (chunkTokensCJK (cfg.max_line_chars * cfg.max_lines_per_caption)
        (tokenizeCJK seg.text))).sum ≤ seg.stop) :
    CaptionInvariants seg (splitAndTime cfg seg) := by
  rw [splitAndTime_cjk_eq cfg seg _ hcjk hdur rfl hch]
  set C := chunkTokensCJK (cfg.max_line_chars * cfg.max_lines_per_caption)
    (tokenizeCJK seg.text) with hC
  set A := allocateDurations cfg seg.start seg.stop C with hA
  have hAlen : A.length = C.length := allocateDurations_length cfg _ _ C hdur hch
  have hps : (C.zip A).map Prod.snd = A := List.map_snd_zip C A (le_of_eq hAlen)
  have hne : C.zip A ≠ [] := by
    intro h
    apply hch
    have hlen := congrArg List.length h
    rw [List.length_zip, hAlen, min_self] at hlen
    exact List.eq_nil_of_length_eq_zero hlen
  have hnn : ∀ p ∈ C.zip A, 0 ≤ p.2 := by
    intro p hp
    exact hnnd p.2 (List.of_mem_zip hp).2
  have hsum2 : seg.start + ((C.zip A).map Prod.snd).sum ≤ seg.stop := by
    rw [hps]
    exact hsum
  obtain ⟨hsum', ⟨c0, rest, hrest, hc0⟩, hmem, hchain, hlast⟩ :=
    buildTimed_spec stripStr seg.stop (C.zip A) seg.start hne hnn hsum2
  refine ⟨?_, ⟨c0, rest, hrest, hc0⟩, hlast, hmem, hchain⟩
  rw [hrest]
  simp

/-- C1 counterexample: with the default configuration, the segment
[0, 20] with text "hi" yields a single caption of duration 20 seconds,
which exceeds max_duration = 6: the durations do sum to the span, but the
claimed clamping of each caption duration to [min_duration, max_duration]
fails, because the source rescales the clamped durations without
re-clamping. -/
theorem C1_counterexample :
    (splitAndTime cfgDefault ⟨0, 20, "hi"⟩).map (fun c => c.stop - c.start) = [(20 : ℚ)]
      ∧ ¬ ((20 : ℚ) ≤ cfgDefault.max_duration) := by
  constructor
  · have h2 : ({ data := joinSpace [['h', 'i']] } : String) = "hi" := by decide
    have hlay : layoutLatin 42 "hi" = "h\ni" := by decide
    have hch : softSplitChunks 84 "hi" = ["hi"] := by decide
    simp only [splitAndTime, cfgDefault]
    norm_num [h2, hlay, hch, buildSubs, setLastEnd]
    rw [if_neg (by decide : ¬(("hi" : String) = ""))]
    norm_num
  · simp only [cfgDefault]
    norm_num

/-- C1 amended: in the space-delimited path (with nonnegative configured
duration bounds), the per-caption durations sum exactly to the segment
span; in the logographic path, the allocated durations sum to the span
within the source's 1e-3 tolerance. Individual durations, however, are not
guaranteed to lie in [min_duration, max_duration] after rescaling. -/
theorem C1_amended :
    (∀ (cfg : Config) (seg : Seg), cfg.cjk_mode = false →
        0 ≤ cfg.min_duration → 0 ≤ cfg.max_duration → 0 < seg.stop - seg.start →
        softSplitChunks (cfg.max_line_chars * cfg.max_lines_per_caption) seg.text ≠ [] →
        ((splitAndTime cfg seg).map (fun c => c.stop - c.start)).sum = seg.stop - seg.start)
      ∧ (∀ (cfg : Config) (start stop : ℚ) (chunks : List String),
          0 < stop - start → chunks ≠ [] →
          |(allocateDurations cfg start stop chunks).sum - (stop - start)| ≤ 1/1000) :=
  ⟨fun cfg seg h1 h2 h3 h4 h5 => (splitAndTime_latin_spec cfg seg h1 h2 h3 h4 h5).1,
   fun cfg start stop chunks h1 h2 => allocateDurations_sum_close cfg start stop chunks h1 h2⟩

/-- Witness for C1 amended at concrete inputs. -/
theorem C1_amended_witness :
    ((splitAndTime cfgSlow ⟨0, 1, "hi"⟩).map (fun c => c.stop - c.start)).sum = (1 : ℚ) - 0
      ∧ |(allocateDurations cfgSlow 0 1 ["hi"]).sum - ((1 : ℚ) - 0)| ≤ 1/1000 :=
  ⟨C1_amended.1 cfgSlow ⟨0, 1, "hi"⟩ rfl (by simp [cfgSlow]) (by simp [cfgSlow])
      (by simp) (by decide),
   C1_amended.2 cfgSlow 0 1 ["hi"] (by simp) (by simp)⟩

/-- C2 counterexample: in CJK mode with max_line_chars 1,
max_lines_per_caption 1 and min_duration 1, the segment [0, 1] with text
"你好吗" produces three captions; the residual correction of
_allocate_durations makes the last allocated duration -1, so the third
caption starts at 2, after the segment end 1 and after its own end: span
containment and start-before-end both fail. -/
theorem C2_counterexample :
    splitAndTime cfgCJK1 ⟨0, 1, "你好吗"⟩ =
        [⟨0, 1, "你"⟩, ⟨1, 1, "好"⟩, ⟨2, 1, "吗"⟩]
      ∧ ¬ ((2 : ℚ) ≤ 1) := by
  constructor
  · have hch : chunkTokensCJK (1 * 1) (tokenizeCJK "你好吗") = ["你", "好", "吗"] := by
      decide
    have ha : (List.dropWhile isWS (List.dropWhile isWS ['你']).reverse).reverse = ['你'] := by
      decide
    have hb : (List.dropWhile isWS (List.dropWhile isWS ['好']).reverse).reverse = ['好'] := by
      decide
    have hc : (List.dropWhile isWS (List.dropWhile isWS ['吗']).reverse).reverse = ['吗'] := by
      decide
    have hs1 : ({ data := ['你'] } : String) = "你" := by decide
    have hs2 : ({ data := ['好'] } : String) = "好" := by decide
    have hs3 : ({ data := ['吗'] } : String) = "吗" := by decide
    have hne : ¬(("你好吗" : String) = "") := by decide
    have hne2 : ¬((["你", "好", "吗"] : List String) = []) := by decide
    simp only [splitAndTime, cfgCJK1]
    norm_num [hch, allocateDurations, buildSubs, setLastEnd, updateLast, stripStr, stripChars,
      ha, hb, hc, hs1, hs2, hs3, hne, hne2]
  · norm_num

/-- C2 amended: the claimed invariants (first caption starts at the segment
start, last ends at the segment end, containment, start at most end,
time-ordered and non-overlapping) hold in the space-delimited path for any
configuration with nonnegative duration bounds; in the logographic path
they hold provided every allocated duration is nonnegative and the
allocated total does not pass the segment end (the residual correction can
violate this, as the counterexample shows). -/
theorem C2_amended :
    (∀ (cfg : Config) (seg : Seg), cfg.cjk_mode = false →
        0 ≤ cfg.min_duration → 0 ≤ cfg.max_duration → 0 < seg.stop - seg.start →
        softSplitChunks (cfg.max_line_chars * cfg.max_lines_per_caption) seg.text ≠ [] →
        CaptionInvariants seg (splitAndTime cfg seg))
      ∧ (∀ (cfg : Config) (seg : Seg), cfg.cjk_mode = true → 0 < seg.stop - seg.start →
          chunkTokensCJK (cfg.max_line_chars * cfg.max_lines_per_caption)
            (tokenizeCJK seg.text) ≠ [] →
          (∀ d ∈ allocateDurations cfg seg.start seg.stop
            (chunkTokensCJK (cfg.max_line_chars * cfg.max_lines_per_caption)
              (tokenizeCJK seg.text)), 0 ≤ d) →
          seg.start + (allocateDurations cfg seg.start seg.stop
            (chunkTokensCJK (cfg.max_line_chars * cfg.max_lines_per_caption)
              (tokenizeCJK seg.text))).sum ≤ seg.stop →
          CaptionInvariants seg (splitAndTime cfg seg)) :=
  ⟨fun cfg seg h1 h2 h3 h4 h5 => (splitAndTime_latin_spec cfg seg h1 h2 h3 h4 h5).2,
   fun cfg seg h1 h2 h3 h4 h5 => splitAndTime_cjk_spec cfg seg h1 h2 h3 h4 h5⟩

/-- Evaluation of the CJK allocator on the witness input: the span [0, 3]
over three one-character chunks gets one second each. -/
theorem allocEvalCJKWitness :
    allocateDurations cfgCJK1 0 3
      (chunkTokensCJK (cfgCJK1.max_line_chars * cfgCJK1.max_lines_per_caption)
        (tokenizeCJK "你好吗")) = [1, 1, 1] := by
  have hch : chunkTokensCJK (cfgCJK1.max_line_chars * cfgCJK1.max_lines_per_caption)
      (tokenizeCJK "你好吗") = ["你", "好", "吗"] := by decide
  have hne2 : ¬((["你", "好", "吗"] : List String) = []) := by decide
  rw [hch]
  simp only [cfgCJK1]
  norm_num [allocateDurations, updateLast, hne2]

/-- Witness for C2 amended at concrete inputs in both modes. -/
theorem C2_amended_witness :
    CaptionInvariants ⟨0, 1, "hi"⟩ (splitAndTime cfgSlow ⟨0, 1, "hi"⟩)
      ∧ CaptionInvariants ⟨0, 3, "你好吗"⟩ (splitAndTime cfgCJK1 ⟨0, 3, "你好吗"⟩) :=
  ⟨C2_amended.1 cfgSlow ⟨0, 1, "hi"⟩ rfl (by simp [cfgSlow]) (by simp [cfgSlow])
      (by simp) (by decide),
   C2_amended.2 cfgCJK1 ⟨0, 3, "你好吗"⟩ rfl (by simp)
      (by decide)
      (by intro d hd; rw [allocEvalCJKWitness] at hd; simp at hd; rw [hd]; exact zero_le_one)
      (by rw [allocEvalCJKWitness]; norm_num)⟩

/-- C9 counterexample: a segment with negative times but positive span
(start -5, end -1) is NOT dropped: the pipeline emits a caption for it, so
the claim that segments with negative times produce zero captions fails. -/
theorem C9_counterexample :
    (splitAndTime cfgDefault ⟨-5, -1, "hi"⟩).length = 1 ∧ (1 : ℕ) ≠ 0 := by
  constructor
  · have h2 : ({ data := joinSpace [['h', 'i']] } : String) = "hi" := by decide
    have hlay : layoutLatin 42 "hi" = "h\ni" := by decide
    have hch : softSplitChunks 84 "hi" = ["hi"] := by decide
    simp only [splitAndTime, cfgDefault]
    norm_num [h2, hlay, hch, buildSubs, setLastEnd]
    rw [if_neg (by decide : ¬(("hi" : String) = ""))]
    rfl
  · simp

/-- C9 amended: a segment whose end does not exceed its start has its
duration clamped to zero and is dropped (no captions, no failure), and its
presence does not affect the captions of the other segments; a segment with
negative times but positive span is processed normally. -/
theorem C9_amended :
    (∀ (cfg : Config) (seg : Seg), seg.stop ≤ seg.start → splitAndTime cfg seg = [])
      ∧ (∀ (cfg : Config) (pre post : List Seg) (bad : Seg), bad.stop ≤ bad.start →
          (pre ++ bad :: post).flatMap (splitAndTime cfg)
            = pre.flatMap (splitAndTime cfg) ++ post.flatMap (splitAndTime cfg)) := by
  have h1 : ∀ (cfg : Config) (seg : Seg), seg.stop ≤ seg.start → splitAndTime cfg seg = [] := by
    intro cfg seg h
    have hguard : max 0 (seg.stop - seg.start) ≤ 0 ∨ seg.text = "" := by
      left
      rw [max_le_iff]
      exact ⟨le_refl 0, by linarith⟩
    simp only [splitAndTime]
    rw [if_pos hguard]
  refine ⟨h1, ?_⟩
  intro cfg pre post bad h
  rw [List.flatMap_append, List.flatMap_cons, h1 cfg bad h]
  simp

/-- Witness for C9 amended: a zero-span segment yields no captions and is
transparent in a list. -/
theorem C9_amended_witness :
    splitAndTime cfgDefault ⟨1, 1, "hi"⟩ = []
      ∧ ([Seg.mk 0 1 "ok"] ++ Seg.mk 1 1 "hi" :: [Seg.mk 2 3 "ok"]).flatMap
          (splitAndTime cfgDefault)
          = [Seg.mk 0 1 "ok"].flatMap (splitAndTime cfgDefault)
            ++ [Seg.mk 2 3 "ok"].flatMap (splitAndTime cfgDefault) :=
  ⟨C9_amended.1 cfgDefault ⟨1, 1, "hi"⟩ (le_refl 1),
   C9_amended.2 cfgDefault [⟨0, 1, "ok"⟩] [⟨2, 3, "ok"⟩] ⟨1, 1, "hi"⟩ (le_refl 1)⟩

/-- C6 counterexample: with target_cps = 1 and max_duration = 1, the
5-character text "ab cd" on a 2-second span implies an estimated minimum of
ceil(5 / (1*1)) = 5 captions, yet the chunker emits a single chunk and the
pipeline a single caption: no midpoint-bisection refinement exists in the
code. -/
theorem C6_counterexample :
    (splitAndTime cfgSlow ⟨0, 2, "ab cd"⟩).length = 1
      ∧ 1 < Nat.ceil ((("ab cd".length : ℕ) : ℚ)
          / (cfgSlow.target_cps * cfgSlow.max_duration)) := by
  constructor
  · have hch : softSplitChunks 84 "ab cd" = ["ab cd"] := by decide
    have hlay : layoutLatin 42 "ab cd" = "ab\ncd" := by decide
    have h2 : ({ data := joinSpace [['a', 'b'], ['c', 'd']] } : String) = "ab cd" := by decide
    simp only [splitAndTime, cfgSlow]
    norm_num [hch, hlay, h2, buildSubs, setLastEnd]
    rw [if_neg (by decide : ¬(("ab cd" : String) = ""))]
    rfl
  · have hlen : ("ab cd".length : ℕ) = 5 := by decide
    rw [hlen]
    simp only [cfgSlow]
    norm_num

/-- C6 amended: the space-delimited pipeline performs no minimum-caption
count refinement: for a segment with positive span, the caption count
equals the greedy chunker's chunk count, whatever target_cps and
max_duration are. -/
theorem C6_amended (cfg : Config) (seg : Seg) (hcjk : cfg.cjk_mode = false)
    (hdur : 0 < seg.stop - seg.start) :
    (splitAndTime cfg seg).length =
      (softSplitChunks (cfg.max_line_chars * cfg.max_lines_per_caption) seg.text).length := by
  by_cases hch : softSplitChunks (cfg.max_line_chars * cfg.max_lines_per_caption) seg.text = []
  · rw [hch]
    by_cases htext : seg.text = ""
    · simp only [splitAndTime]
      rw [if_pos (Or.inr htext)]
      rfl
    · have hguard : ¬(max 0 (seg.stop - seg.start) ≤ 0 ∨ seg.text = "") := by
        rintro (h | h)
        · exact absurd (le_trans (le_max_right 0 _) h) (not_le.mpr hdur)
        · exact htext h
      simp only [splitAndTime, hcjk, Bool.false_eq_true, if_false]
      rw [if_neg hguard, if_pos hch]
      rfl
  · rw [splitAndTime_latin_eq cfg seg _ _ _ _ hcjk hdur rfl hch rfl rfl rfl]
    rw [setLastEnd_length, buildSubs_length, List.length_zip, List.length_map,
      List.length_map, min_self]

/-- Witness for C6 amended: the caption count for "ab cd" equals the greedy
chunk count. -/
theorem C6_amended_witness :
    (splitAndTime cfgSlow ⟨0, 1, "ab cd"⟩).length =
      (softSplitChunks (cfgSlow.max_line_chars * cfgSlow.max_lines_per_caption) "ab cd").length :=
  C6_amended cfgSlow ⟨0, 1, "ab cd"⟩ rfl (by simp)

/-- C7: merging is the greedy left fold described by the spec: the next
segment is absorbed exactly when the gap is below merge_short_gap and the
combined text length stays below merge_max_chars, extending the end and
joining texts with a space (space-delimited) or nothing (logographic),
otherwise the accumulator is flushed; and the two segments of Scenario C,
{0,1,"hi"} and {1.1,2,"there"} with merge_short_gap 0.2, merge into one
segment spanning [0, 2]. -/
theorem C7_theorem :
    (∀ (cfg : Config) (cur nxt : Seg) (rest : List Seg),
      (nxt.start - cur.stop < cfg.merge_short_gap
          ∧ cur.text.length + nxt.text.length < cfg.merge_max_chars →
        mergeLoop cfg cur (nxt :: rest) =
          mergeLoop cfg
            ⟨cur.start, nxt.stop,
              cur.text ++ (if cfg.cjk_mode then "" else " ") ++ nxt.text⟩ rest)
      ∧ (¬(nxt.start - cur.stop < cfg.merge_short_gap
          ∧ cur.text.length + nxt.text.length < cfg.merge_max_chars) →
        mergeLoop cfg cur (nxt :: rest) = cur :: mergeLoop cfg nxt rest))
    ∧ mergeSegments cfgMerge
        (cleanSegments cfgMerge [⟨0, 1, "hi"⟩, ⟨11/10, 2, "there"⟩])
        = [⟨0, 2, "hi there"⟩] := by
  constructor
  · intro cfg cur nxt rest
    constructor
    · intro h
      simp only [mergeLoop]
      rw [if_pos h]
    · intro h
      simp only [mergeLoop]
      rw [if_neg h]
  · have hc1 : cleanText cfgMerge "hi" = "hi" := by decide
    have hc2 : cleanText cfgMerge "there" = "there" := by decide
    have hs1 : shouldSkipSegment "hi" = false := by decide
    have hs2 : shouldSkipSegment "there" = false := by decide
    have hclean : cleanSegments cfgMerge [⟨0, 1, "hi"⟩, ⟨11/10, 2, "there"⟩]
        = [⟨0, 1, "hi"⟩, ⟨11/10, 2, "there"⟩] := by
      simp [cleanSegments, hc1, hc2, hs1, hs2]
    rw [hclean]
    have hcond : (11/10 : ℚ) - 1 < cfgMerge.merge_short_gap
        ∧ ("hi" : String).length + ("there" : String).length < cfgMerge.merge_max_chars := by
      constructor
      · simp only [cfgMerge]
        norm_num
      · decide
    simp only [mergeSegments, mergeLoop]
    rw [if_pos hcond]
    have hjoin : ("hi" : String) ++ (if cfgMerge.cjk_mode then "" else " ") ++ "there"
        = "hi there" := by decide
    rw [hjoin]

/-- Witness for C7 at the scenario input: the absorb direction of the fold
step fires on the scenario's two segments. -/
theorem C7_witness :
    mergeLoop cfgMerge ⟨0, 1, "hi"⟩ [⟨11/10, 2, "there"⟩] =
      mergeLoop cfgMerge
        ⟨0, 2, "hi" ++ (if cfgMerge.cjk_mode then "" else " ") ++ "there"⟩ [] :=
  (C7_theorem.1 cfgMerge ⟨0, 1, "hi"⟩ ⟨11/10, 2, "there"⟩ []).1
    ⟨by simp only [cfgMerge]; norm_num, by decide⟩

theorem strConcat_data (ts : List String) :
    (strConcat ts).data = (ts.map String.data).flatten := rfl

theorem hardCutAux_flatten (limit : ℕ) :
    ∀ (fuel : ℕ) (cs : List Char), (hardCutAux limit fuel cs).flatten = cs := by
  intro fuel
  induction fuel with
  | zero =>
    intro cs
    simp only [hardCutAux]
    split
    · rename_i h; rw [h]; rfl
    · simp
  | succ n ih =>
    intro cs
    simp only [hardCutAux]
    split
    · simp [ih]
    · split
      · rename_i h; rw [h]; rfl
      · simp

theorem hardCut_flatten (limit : ℕ) (cs : List Char) :
    (hardCut limit cs).flatten = cs := hardCutAux_flatten limit cs.length cs

theorem hardCutAux_bound (limit : ℕ) (hl : 1 ≤ limit) :
    ∀ (fuel : ℕ) (cs : List Char), cs.length ≤ fuel + limit →
      ∀ p ∈ hardCutAux limit fuel cs, p.length ≤ limit := by
  intro fuel
  induction fuel with
  | zero =>
    intro cs hcs p hp
    simp only [hardCutAux] at hp
    split at hp
    · simp at hp
    · simp only [List.mem_singleton] at hp
      subst hp
      simpa using hcs
  | succ n ih =>
    intro cs hcs p hp
    simp only [hardCutAux] at hp
    split at hp
    · rcases List.mem_cons.mp hp with h | h
      · subst h
        simp
      · apply ih (cs.drop limit) _ p h
        rw [List.length_drop]
        omega
    · split at hp
      · simp at hp
      · simp only [List.mem_singleton] at hp
        subst hp
        rename_i hlen _
        rw [not_lt] at hlen
        omega

theorem hardCut_bound (limit : ℕ) (hl : 1 ≤ limit) (cs : List Char) :
    ∀ p ∈ hardCut limit cs, p.length ≤ limit :=
  hardCutAux_bound limit hl cs.length cs (by omega)

/-- The token loop of _chunk_tokens_cjk loses no characters as long as no
token exceeds the limit (an over-limit token is dropped by the dead-branch
bug, hence the hypothesis). -/
theorem chunkTokensCJKAux_flatten (limit : ℕ) :
    ∀ (tokens cur : List String) (cur_len : ℕ),
      (∀ t ∈ tokens, t.length ≤ limit) →
      ((chunkTokensCJKAux limit cur cur_len tokens).map String.data).flatten
        = (cur.map String.data).flatten ++ (tokens.map String.data).flatten := by
  intro tokens
  induction tokens with
  | nil =>
    intro cur len _
    simp only [chunkTokensCJKAux]
    split
    · rename_i h; rw [h]; simp
    · simp [strConcat_data]
  | cons tok rest ih =>
    intro cur len htl
    have htok : tok.length ≤ limit := htl tok (by simp)
    have hrest : ∀ t ∈ rest, t.length ≤ limit := fun t ht => htl t (by simp [ht])
    simp only [chunkTokensCJKAux]
    have ih1 := fun cur2 len2 => ih cur2 len2 hrest
    by_cases hov : limit < len + tok.length ∧ cur ≠ []
    · simp only [if_pos hov, if_pos htok]
      split
      · simp [strConcat_data, ih1 [] 0]
      · simp [strConcat_data, ih1 [tok] tok.length]
    · simp only [if_neg hov, if_pos htok]
      split
      · simp [strConcat_data, ih1 [] 0]
      · simp [strConcat_data, ih1 (cur ++ [tok]) (len + tok.length)]

/-- The hard-cut refinement pass rearranges chunk boundaries but preserves
the concatenation of all characters. -/
theorem flatMap_hardCut_flatten (limit : ℕ) :
    ∀ chunks : List String,
      ((chunks.flatMap (fun c => (hardCut limit c.data).map String.mk)).map
        String.data).flatten = (chunks.map String.data).flatten := by
  intro chunks
  induction chunks with
  | nil => rfl
  | cons c cs ih =>
    simp only [List.flatMap_cons, List.map_append, List.flatten_append, ih,
      List.map_cons, List.flatten_cons]
    congr 1
    rw [List.map_map]
    have : String.data ∘ String.mk = id := rfl
    rw [this, List.map_id]
    exact hardCut_flatten limit c.data

/-- _chunk_tokens_cjk preserves the concatenated text when no token
exceeds the limit. -/
theorem chunkTokensCJK_flatten (limit : ℕ) (tokens : List String)
    (h : ∀ t ∈ tokens, t.length ≤ limit) :
    ((chunkTokensCJK limit tokens).map String.data).flatten
      = (tokens.map String.data).flatten := by
  simp only [chunkTokensCJK]
  rw [flatMap_hardCut_flatten]
  have := chunkTokensCJKAux_flatten limit tokens [] 0 h
  simpa using this

/-- Every chunk emitted by _chunk_tokens_cjk fits within the limit (for a
positive limit), thanks to the final hard-cut pass. -/
theorem chunkTokensCJK_bound (limit : ℕ) (hl : 1 ≤ limit) (tokens : List String) :
    ∀ c ∈ chunkTokensCJK limit tokens, c.length ≤ limit := by
  intro c hc
  simp only [chunkTokensCJK, List.mem_flatMap] at hc
  obtain ⟨ch, _, hc2⟩ := hc
  obtain ⟨p, hp, rfl⟩ := List.mem_map.mp hc2
  exact hardCut_bound limit hl ch.data p hp

theorem joinSpace_nil : joinSpace [] = [] := rfl

theorem joinSpace_singleton (w : List Char) : joinSpace [w] = w := by
  simp [joinSpace]

theorem joinSpace_cons_cons (w v : List Char) (ws : List (List Char)) :
    joinSpace (w :: v :: ws) = w ++ ' ' :: joinSpace (v :: ws) := by
  simp [joinSpace, List.intersperse_cons_cons]

theorem joinSpace_append (xs ys : List (List Char)) (hx : xs ≠ []) (hy : ys ≠ []) :
    joinSpace (xs ++ ys) = joinSpace xs ++ ' ' :: joinSpace ys := by
  induction xs with
  | nil => exact absurd rfl hx
  | cons x xs ih =>
    cases xs with
    | nil =>
      cases ys with
      | nil => exact absurd rfl hy
      | cons y ys => simp [joinSpace_cons_cons, joinSpace_singleton]
    | cons x2 xs2 =>
      calc joinSpace ((x :: x2 :: xs2) ++ ys)
          = x ++ ' ' :: joinSpace ((x2 :: xs2) ++ ys) := by
            simp only [List.cons_append]
            rw [joinSpace_cons_cons]
        _ = x ++ ' ' :: (joinSpace (x2 :: xs2) ++ ' ' :: joinSpace ys) := by
            rw [ih (by simp)]
        _ = joinSpace (x :: x2 :: xs2) ++ ' ' :: joinSpace ys := by
            rw [joinSpace_cons_cons]
            simp

theorem joinSpace_length :
    ∀ ws : List (List Char), (joinSpace ws).length = count_chars ws := by
  intro ws
  induction ws with
  | nil => rfl
  | cons w vs ih =>
    cases vs with
    | nil => simp [joinSpace_singleton, count_chars]
    | cons v ws2 =>
      rw [joinSpace_cons_cons]
      simp only [List.length_append, List.length_cons, ih]
      simp only [count_chars, List.map_cons, List.sum_cons, List.length_cons]
      omega

theorem count_chars_singleton (w : List Char) : count_chars [w] = w.length := by
  simp [count_chars]

theorem softSplitAux_ne_nil (limit : ℕ) :
    ∀ (ws cur : List (List Char)), cur ≠ [] → softSplitAux limit cur ws ≠ [] := by
  intro ws
  induction ws with
  | nil =>
    intro cur h
    simp only [softSplitAux]
    rw [if_neg h]
    simp
  | cons w ws ih =>
    intro cur h
    simp only [softSplitAux]
    by_cases hfit : count_chars (cur ++ [w]) ≤ limit
    · rw [if_pos hfit]
      exact ih (cur ++ [w]) (by simp)
    · rw [if_neg hfit, if_neg h]
      simp

/-- The word loop of _soft_split_chunks, joined back with single spaces,
reproduces the words joined with single spaces, provided no word exceeds
the limit (so the hard cut never fires). -/
theorem softSplitAux_join (limit : ℕ) :
    ∀ (ws cur : List (List Char)), (∀ w ∈ ws, w.length ≤ limit) →
      joinSpace (softSplitAux limit cur ws) = joinSpace (cur ++ ws) := by
  intro ws
  induction ws with
  | nil =>
    intro cur _
    simp only [softSplitAux, List.append_nil]
    split
    · rename_i h; rw [h]
    · rw [joinSpace_singleton]
  | cons w ws ih =>
    intro cur hw
    have hwlen : w.length ≤ limit := hw w (by simp)
    have hws : ∀ u ∈ ws, u.length ≤ limit := fun u hu => hw u (by simp [hu])
    simp only [softSplitAux]
    by_cases hfit : count_chars (cur ++ [w]) ≤ limit
    · rw [if_pos hfit, ih (cur ++ [w]) hws]
      simp
    · rw [if_neg hfit]
      by_cases hcur : cur = []
      · exfalso
        rw [hcur] at hfit
        simp only [List.nil_append, count_chars_singleton] at hfit
        exact absurd hwlen hfit
      · rw [if_neg hcur]
        have hrec : softSplitAux limit [w] ws ≠ [] := softSplitAux_ne_nil limit ws [w] (by simp)
        cases hsp : softSplitAux limit [w] ws with
        | nil => exact absurd hsp hrec
        | cons a l =>
          rw [joinSpace_cons_cons, ← hsp, ih [w] hws]
          rw [joinSpace_append cur (w :: ws) hcur (by simp)]
          simp

/-- Every chunk emitted by the word loop of _soft_split_chunks either fits
within the limit or is a single input word (an over-limit word is emitted
whole whenever the running chunk was nonempty when it arrived). -/
theorem softSplitAux_bound (limit : ℕ) (hl : 1 ≤ limit) :
    ∀ (ws cur : List (List Char)),
      (count_chars cur ≤ limit ∨ ∃ u, cur = [u]) →
      ∀ p ∈ softSplitAux limit cur ws, p.length ≤ limit ∨ p ∈ cur ++ ws := by
  intro ws
  induction ws with
  | nil =>
    intro cur hinv p hp
    simp only [softSplitAux] at hp
    split at hp
    · simp at hp
    · simp only [List.mem_singleton] at hp
      subst hp
      rcases hinv with h | ⟨u, rfl⟩
      · left
        rw [joinSpace_length]
        exact h
      · right
        rw [joinSpace_singleton]
        simp
  | cons w ws ih =>
    intro cur hinv p hp
    simp only [softSplitAux] at hp
    by_cases hfit : count_chars (cur ++ [w]) ≤ limit
    · rw [if_pos hfit] at hp
      rcases ih (cur ++ [w]) (Or.inl hfit) p hp with h | h
      · exact Or.inl h
      · right
        simpa using h
    · rw [if_neg hfit] at hp
      by_cases hcur : cur = []
      · rw [if_pos hcur] at hp
        rcases List.mem_append.mp hp with h | h
        · exact Or.inl (hardCut_bound limit hl w p h)
        · rcases ih [] (Or.inl (by simp [count_chars])) p h with h2 | h2
          · exact Or.inl h2
          · right
            rw [hcur]
            simp only [List.nil_append] at h2 ⊢
            exact List.mem_cons_of_mem w h2
      · rw [if_neg hcur] at hp
        rcases List.mem_cons.mp hp with h | h
        · subst h
          rcases hinv with h2 | ⟨u, rfl⟩
          · left
            rw [joinSpace_length]
            exact h2
          · right
            rw [joinSpace_singleton]
            simp
        · rcases ih [w] (Or.inr ⟨w, rfl⟩) p h with h2 | h2
          · exact Or.inl h2
          · right
            rcases List.mem_cons.mp (by simpa using h2) with h3 | h3
            · exact List.mem_append.mpr (Or.inr (by simp [h3]))
            · exact List.mem_append.mpr (Or.inr (List.mem_cons_of_mem w h3))

/-- C3 counterexample: the single-word segment "hello" is laid out as two
lines "hel" / "lo"; joining caption texts with line breaks turned into
spaces and whitespace collapsed gives "hel lo", not the cleaned input
"hello": the two-line layout can break inside a word, so caption-level
reconstruction fails. -/
theorem C3_counterexample :
    reconstructText (splitAndTime cfgDefault ⟨0, 4, "hello"⟩) = "hel lo"
      ∧ cleanText cfgDefault "hello" = "hello"
      ∧ ("hel lo" : String) ≠ "hello" := by
  refine ⟨?_, by decide, by decide⟩
  have hsplit : splitAndTime cfgDefault ⟨0, 4, "hello"⟩ = [⟨0, 4, "hel\nlo"⟩] := by
    have hch : softSplitChunks 84 "hello" = ["hello"] := by decide
    have hlay : layoutLatin 42 "hello" = "hel\nlo" := by decide
    have h2 : ({ data := joinSpace [['h', 'e', 'l', 'l', 'o']] } : String) = "hello" := by
      decide
    simp only [splitAndTime, cfgDefault]
    norm_num [hch, hlay, h2, buildSubs, setLastEnd]
    decide
  rw [hsplit]
  decide

/-- C3 amended: reconstruction holds at the chunk level: in logographic
mode, concatenating the chunks reproduces the concatenated tokens whenever
no token exceeds the limit; in space-delimited mode, joining the chunks
with single spaces reproduces the words joined with single spaces (the
whitespace-collapsed cleaned text) whenever no word exceeds the limit.
Caption-level reconstruction fails because the two-line layout can break
inside a word. -/
theorem C3_amended :
    (∀ (limit : ℕ) (tokens : List String), (∀ t ∈ tokens, t.length ≤ limit) →
        strConcat (chunkTokensCJK limit tokens) = strConcat tokens)
      ∧ (∀ (limit : ℕ) (text : String), (∀ w ∈ wordsOf text.data, w.length ≤ limit) →
          joinSpace ((softSplitChunks limit text).map String.data)
            = joinSpace (wordsOf text.data)) := by
  constructor
  · intro limit tokens h
    exact congrArg String.mk (chunkTokensCJK_flatten limit tokens h)
  · intro limit text h
    simp only [softSplitChunks]
    rw [List.map_map]
    have hid : String.data ∘ String.mk = id := rfl
    rw [hid, List.map_id]
    simpa using softSplitAux_join limit (wordsOf text.data) [] h

/-- Witness for C3 amended at concrete inputs in both modes. -/
theorem C3_amended_witness :
    strConcat (chunkTokensCJK 1 ["你", "好"]) = strConcat ["你", "好"]
      ∧ joinSpace ((softSplitChunks 4 "aa bb").map String.data)
          = joinSpace (wordsOf ("aa bb" : String).data) :=
  ⟨C3_amended.1 1 ["你", "好"] (by decide), C3_amended.2 4 "aa bb" (by decide)⟩

/-- C4 counterexample: with limit 2 x 2 = 4, the 5-character word "bbbbb"
arriving while the running chunk holds "aa" is emitted whole as an
over-limit chunk: the hard cut fires only when the long word starts a new
chunk, so the claim that no emitted chunk exceeds the limit fails. -/
theorem C4_counterexample :
    softSplitChunks (2 * 2) "aa bbbbb" = ["aa", "bbbbb"]
      ∧ 2 * 2 < ("bbbbb" : String).length := by decide

/-- C4 amended: in logographic mode every chunk fits within the (positive)
limit; in space-delimited mode every chunk either fits within the limit or
is exactly one input word longer than the limit (such a word is hard-cut
only when it begins a new chunk). -/
theorem C4_amended :
    (∀ (limit : ℕ) (tokens : List String), 1 ≤ limit →
        ∀ c ∈ chunkTokensCJK limit tokens, c.length ≤ limit)
      ∧ (∀ (limit : ℕ) (text : String), 1 ≤ limit →
          ∀ c ∈ softSplitChunks limit text,
            c.length ≤ limit ∨ ∃ w ∈ wordsOf text.data, c = String.mk w) := by
  constructor
  · intro limit tokens hl
    exact chunkTokensCJK_bound limit hl tokens
  · intro limit text hl c hc
    simp only [softSplitChunks] at hc
    obtain ⟨p, hp, rfl⟩ := List.mem_map.mp hc
    rcases softSplitAux_bound limit hl (wordsOf text.data) []
        (Or.inl (by simp [count_chars])) p hp with h | h
    · left
      simpa using h
    · right
      exact ⟨p, by simpa using h, rfl⟩

/-- Witness for C4 amended at concrete inputs in both modes. -/
theorem C4_amended_witness :
    ("你" : String).length ≤ 1
      ∧ (("bbbbb" : String).length ≤ 2 * 2
          ∨ ∃ w ∈ wordsOf ("aa bbbbb" : String).data, ("bbbbb" : String) = String.mk w) :=
  ⟨C4_amended.1 1 ["你", "好"] (by decide) "你" (by decide),
   C4_amended.2 (2 * 2) "aa bbbbb" (by decide) "bbbbb" (by decide)⟩

theorem stripChars_subset (cs : List Char) : ∀ ch ∈ stripChars cs, ch ∈ cs := by
  intro ch h
  simp only [stripChars, List.mem_reverse] at h
  have h2 := (List.dropWhile_sublist (l := (cs.dropWhile isWS).reverse) isWS).subset h
  rw [List.mem_reverse] at h2
  exact (List.dropWhile_sublist isWS).subset h2

theorem stripChars_length_le (cs : List Char) : (stripChars cs).length ≤ cs.length := by
  simp only [stripChars, List.length_reverse]
  calc ((cs.dropWhile isWS).reverse.dropWhile isWS).length
      ≤ (cs.dropWhile isWS).reverse.length := (List.dropWhile_sublist isWS).length_le
    _ = (cs.dropWhile isWS).length := List.length_reverse _
    _ ≤ cs.length := (List.dropWhile_sublist isWS).length_le

theorem hardCut_chars (limit : ℕ) (cs : List Char) :
    ∀ p ∈ hardCut limit cs, ∀ ch ∈ p, ch ∈ cs := by
  intro p hp ch hch
  rw [← hardCut_flatten limit cs]
  exact List.mem_flatten.mpr ⟨p, hp, hch⟩

/-- Characters of the chunks emitted by the CJK token loop all come from
the running chunk or the tokens. -/
theorem chunkTokensCJKAux_pred (P : Char → Prop) (limit : ℕ) :
    ∀ (tokens cur : List String) (cur_len : ℕ),
      (∀ t ∈ tokens, ∀ ch ∈ t.data, P ch) → (∀ t ∈ cur, ∀ ch ∈ t.data, P ch) →
      ∀ c ∈ chunkTokensCJKAux limit cur cur_len tokens, ∀ ch ∈ c.data, P ch := by
  intro tokens
  induction tokens with
  | nil =>
    intro cur len _ hcur c hc ch hch
    simp only [chunkTokensCJKAux] at hc
    split at hc
    · simp at hc
    · simp only [List.mem_singleton] at hc
      subst hc
      rw [strConcat_data] at hch
      obtain ⟨l, hl, hch2⟩ := List.mem_flatten.mp hch
      obtain ⟨t, ht, rfl⟩ := List.mem_map.mp hl
      exact hcur t ht ch hch2
  | cons tok rest ih =>
    intro cur len htok hcur c hc ch hch
    have hrest : ∀ t ∈ rest, ∀ ch2 ∈ t.data, P ch2 := fun t ht => htok t (by simp [ht])
    have htok1 : ∀ ch2 ∈ tok.data, P ch2 := htok tok (by simp)
    have hconcat : ∀ (l : List String), (∀ t ∈ l, ∀ ch2 ∈ t.data, P ch2) →
        ∀ ch2 ∈ (strConcat l).data, P ch2 := by
      intro l hl ch2 hch2
      rw [strConcat_data] at hch2
      obtain ⟨u, hu, hch3⟩ := List.mem_flatten.mp hch2
      obtain ⟨t, ht, rfl⟩ := List.mem_map.mp hu
      exact hl t ht ch2 hch3
    simp only [chunkTokensCJKAux] at hc
    by_cases hov : limit < len + tok.length ∧ cur ≠ []
    · simp only [if_pos hov] at hc
      by_cases htl : tok.length ≤ limit
      · simp only [if_pos htl] at hc
        split at hc
        · simp only [List.append_assoc, List.mem_append, List.mem_singleton] at hc
          rcases hc with hc | hc | hc
          · exact hconcat cur hcur ch (by rw [hc] at hch; exact hch)
          · exact hconcat ([] ++ [tok]) (by simpa using htok1) ch
              (by rw [hc] at hch; exact hch)
          · exact ih [] 0 hrest (by simp) c hc ch hch
        · simp only [List.nil_append, List.mem_append, List.mem_singleton] at hc
          rcases hc with hc | hc
          · exact hconcat cur hcur ch (by rw [hc] at hch; exact hch)
          · exact ih ([] ++ [tok]) (0 + tok.length) hrest (by simpa using htok1) c hc ch hch
      · simp only [if_neg htl] at hc
        split at hc
        · simp only [List.append_assoc, List.mem_append, List.mem_singleton] at hc
          rcases hc with hc | hc | hc
          · exact hconcat cur hcur ch (by rw [hc] at hch; exact hch)
          · exact hconcat [] (by simp) ch (by rw [hc] at hch; exact hch)
          · exact ih [] 0 hrest (by simp) c hc ch hch
        · simp only [List.nil_append, List.mem_append, List.mem_singleton] at hc
          rcases hc with hc | hc
          · exact hconcat cur hcur ch (by rw [hc] at hch; exact hch)
          · exact ih [] 0 hrest (by simp) c hc ch hch
    · simp only [if_neg hov] at hc
      by_cases htl : tok.length ≤ limit
      · simp only [if_pos htl] at hc
        split at hc
        · simp only [List.nil_append, List.mem_append, List.mem_singleton] at hc
          rcases hc with hc | hc
          · apply hconcat (cur ++ [tok]) _ ch (by rw [hc] at hch; exact hch)
            intro t ht
            rcases List.mem_append.mp ht with h | h
            · exact hcur t h
            · rw [List.mem_singleton.mp h]
              exact htok1
          · exact ih [] 0 hrest (by simp) c hc ch hch
        · apply ih (cur ++ [tok]) (len + tok.length) hrest _ c hc ch hch
          intro t ht
          rcases List.mem_append.mp ht with h | h
          · exact hcur t h
          · rw [List.mem_singleton.mp h]
            exact htok1
      · simp only [if_neg htl] at hc
        split at hc
        · simp only [List.nil_append, List.mem_append, List.mem_singleton] at hc
          rcases hc with hc | hc
          · exact hconcat cur hcur ch (by rw [hc] at hch; exact hch)
          · exact ih [] 0 hrest (by simp) c hc ch hch
        · exact ih cur len hrest hcur c hc ch hch

/-- Characters of _chunk_tokens_cjk output all come from the tokens. -/
theorem chunkTokensCJK_pred (P : Char → Prop) (limit : ℕ) (tokens : List String)
    (h : ∀ t ∈ tokens, ∀ ch ∈ t.data, P ch) :
    ∀ c ∈ chunkTokensCJK limit tokens, ∀ ch ∈ c.data, P ch := by
  intro c hc ch hch
  simp only [chunkTokensCJK, List.mem_flatMap] at hc
  obtain ⟨mid, hmid, hc2⟩ := hc
  obtain ⟨p, hp, rfl⟩ := List.mem_map.mp hc2
  have hmem : ch ∈ mid.data := hardCut_chars limit mid.data p hp ch hch
  exact chunkTokensCJKAux_pred P limit tokens [] 0 h (by simp) mid hmid ch hmem

theorem rfindSpaceBefore_lt (cs : List Char) (n : ℕ) (p : ℕ)
    (h : rfindSpaceBefore cs n = some p) : p < n := by
  simp only [rfindSpaceBefore] at h
  have hmem := List.mem_of_mem_getLast? h
  obtain ⟨pair, hpair, rfl⟩ := List.mem_map.mp hmem
  have h2 := List.mem_of_mem_filter hpair
  have h3 := List.fst_lt_of_mem_enum h2
  calc pair.1 < (cs.take n).length := h3
    _ ≤ n := by simp

/-- Bounds of the inline two-line layout: the first line never exceeds the
rounded-up half of the chunk, and the split position is at least
min(max_line_chars / 2, half), so both lines are bounded in terms of the
chunk length. -/
theorem layoutLines_bound (mlc : ℕ) (c : String) :
    (layoutLines mlc c).1.length ≤ (c.length + 1) / 2
      ∧ (layoutLines mlc c).2.length + min (mlc / 2) ((c.length + 1) / 2) ≤ c.length := by
  have hclen : c.length = c.data.length := rfl
  have hkey : ∀ pos : ℕ, pos ≤ (c.data.length + 1) / 2 → min (mlc / 2) ((c.data.length + 1) / 2) ≤ pos →
      (stripStr (String.mk (c.data.take pos))).length ≤ (c.length + 1) / 2
        ∧ (stripStr (String.mk (c.data.drop pos))).length
            + min (mlc / 2) ((c.length + 1) / 2) ≤ c.length := by
    intro pos hple hpge
    have hhalfle : (c.data.length + 1) / 2 ≤ c.data.length ∨ c.data.length = 0 := by omega
    constructor
    · calc (stripStr (String.mk (c.data.take pos))).length
          ≤ (c.data.take pos).length := stripChars_length_le _
        _ ≤ pos := by rw [List.length_take]; omega
        _ ≤ (c.length + 1) / 2 := by rw [hclen]; omega
    · have hl2 : (stripStr (String.mk (c.data.drop pos))).length ≤ c.data.length - pos := by
        calc (stripStr (String.mk (c.data.drop pos))).length
            ≤ (c.data.drop pos).length := stripChars_length_le _
          _ = c.data.length - pos := List.length_drop _ _
      rw [hclen]
      rcases hhalfle with h | h
      · omega
      · have : pos = 0 := by omega
        omega
  simp only [layoutLines]
  cases hr : rfindSpaceBefore c.data ((c.data.length + 1) / 2) with
  | none =>
    exact hkey _ (le_refl _) (min_le_right _ _)
  | some p =>
    have hplt := rfindSpaceBefore_lt c.data _ p hr
    by_cases hpm : p < mlc / 2
    · dsimp only
      rw [if_pos hpm]
      exact hkey _ (le_refl _) (min_le_right _ _)
    · dsimp only
      rw [if_neg hpm]
      rw [not_lt] at hpm
      exact hkey p (by omega) (le_trans (min_le_left _ _) hpm)

/-- Every caption text in the CJK branch is a stripped chunk. -/
theorem splitAndTime_cjk_text (cfg : Config) (seg : Seg) (hcjk : cfg.cjk_mode = true) :
    ∀ cap ∈ splitAndTime cfg seg,
      ∃ c ∈ chunkTokensCJK (cfg.max_line_chars * cfg.max_lines_per_caption)
        (tokenizeCJK seg.text), cap.text = stripStr c := by
  intro cap hcap
  simp only [splitAndTime, hcjk, if_true] at hcap
  split at hcap
  · simp at hcap
  · split at hcap
    · simp at hcap
    · have h1 := List.mem_map_of_mem Caption.text hcap
      rw [setLastEnd_map_text, buildSubs_map_text] at h1
      obtain ⟨p, hp, heq⟩ := List.mem_map.mp h1
      exact ⟨p.1, (List.of_mem_zip hp).1, heq.symm⟩

/-- C5 counterexample: with max_line_chars 6 and two lines allowed, the
text "aaa bbb ccc" (no word over 6 characters) becomes one caption whose
second line "bbb ccc" has 7 characters, exceeding max_line_chars without
any over-long atomic token forcing it. -/
theorem C5_counterexample :
    (splitAndTime cfgNarrow ⟨0, 4, "aaa bbb ccc"⟩).map Caption.text = ["aaa\nbbb ccc"]
      ∧ capLines ⟨0, 4, "aaa\nbbb ccc"⟩ = ["aaa", "bbb ccc"]
      ∧ ¬ (("bbb ccc" : String).length ≤ cfgNarrow.max_line_chars)
      ∧ (wordsOf ("aaa bbb ccc" : String).data).all
          (fun w => w.length ≤ cfgNarrow.max_line_chars) = true := by
  refine ⟨?_, by decide, by decide, by decide⟩
  have hch : softSplitChunks 12 "aaa bbb ccc" = ["aaa bbb ccc"] := by decide
  have hlay : layoutLatin 6 "aaa bbb ccc" = "aaa\nbbb ccc" := by decide
  have h2 : ({ data := joinSpace [['a', 'a', 'a'], ['b', 'b', 'b'], ['c', 'c', 'c']] }
      : String) = "aaa bbb ccc" := by decide
  simp only [splitAndTime, cfgNarrow]
  norm_num [hch, hlay, h2, buildSubs, setLastEnd]
  decide

/-- C5 amended: in logographic mode a caption is a single line whenever
the segment text itself contains no line break; in space-delimited mode, a
rendered line is NOT bounded by max_line_chars: the provable bounds are
that line 1 never exceeds the rounded-up half of the chunk and that the
split position is at least min(max_line_chars / 2, half), so line 2 can
reach the chunk length minus that quantity, which exceeds max_line_chars
even when every word fits within it. -/
theorem C5_amended :
    (∀ (cfg : Config) (seg : Seg), cfg.cjk_mode = true →
        (∀ ch ∈ seg.text.data, ch ≠ '\n') →
        ∀ cap ∈ splitAndTime cfg seg, ∀ ch ∈ cap.text.data, ch ≠ '\n')
      ∧ (∀ (mlc : ℕ) (c : String),
          (layoutLines mlc c).1.length ≤ (c.length + 1) / 2
            ∧ (layoutLines mlc c).2.length + min (mlc / 2) ((c.length + 1) / 2)
                ≤ c.length) := by
  constructor
  · intro cfg seg hcjk htext cap hcap ch hch
    obtain ⟨c, hc, heq⟩ := splitAndTime_cjk_text cfg seg hcjk cap hcap
    rw [heq] at hch
    have hch2 : ch ∈ c.data := stripChars_subset c.data ch hch
    have htoks : ∀ t ∈ tokenizeCJK seg.text, ∀ ch2 ∈ t.data, ch2 ≠ '\n' := by
      intro t ht ch2 hch3
      simp only [tokenizeCJK] at ht
      obtain ⟨c0, hc0, rfl⟩ := List.mem_map.mp ht
      simp only [List.mem_singleton] at hch3
      subst hch3
      exact htext _ (stripChars_subset seg.text.data _ hc0)
    exact chunkTokensCJK_pred (fun ch2 => ch2 ≠ '\n') _ _ htoks c hc ch hch2
  · intro mlc c
    exact layoutLines_bound mlc c

/-- Witness for C5 amended at concrete inputs. -/
theorem C5_amended_witness :
    ('你' ≠ '\n')
      ∧ ((layoutLines 6 "aaa bbb ccc").1.length ≤ (("aaa bbb ccc" : String).length + 1) / 2
          ∧ (layoutLines 6 "aaa bbb ccc").2.length
              + min (6 / 2) ((("aaa bbb ccc" : String).length + 1) / 2)
              ≤ ("aaa bbb ccc" : String).length) :=
  ⟨C5_amended.1 cfgCJK1 ⟨0, 3, "你好"⟩ rfl (by decide) ⟨0, 1, "你"⟩
      (by
        have hev : splitAndTime cfgCJK1 ⟨0, 3, "你好"⟩ = [⟨0, 1, "你"⟩, ⟨1, 3, "好"⟩] := by
          have hch : chunkTokensCJK (1 * 1) (tokenizeCJK "你好") = ["你", "好"] := by decide
          have ha : (List.dropWhile isWS (List.dropWhile isWS ['你']).reverse).reverse
              = ['你'] := by decide
          have hb : (List.dropWhile isWS (List.dropWhile isWS ['好']).reverse).reverse
              = ['好'] := by decide
          have hs1 : ({ data := ['你'] } : String) = "你" := by decide
          have hs2 : ({ data := ['好'] } : String) = "好" := by decide
          have hne : ¬(("你好" : String) = "") := by decide
          have hne2 : ¬((["你", "好"] : List String) = []) := by decide
          simp only [splitAndTime, cfgCJK1]
          norm_num [hch, allocateDurations, buildSubs, setLastEnd, updateLast,
            stripStr, stripChars, ha, hb, hs1, hs2, hne, hne2]
        rw [hev]
        simp)
      '你' (by decide),
   C5_amended.2 6 "aaa bbb ccc"⟩

theorem isWS_false_of_word (c : Char) (h : isWordChar c = true) : isWS c = false := by
  by_contra hne
  rw [Bool.not_eq_false] at hne
  simp only [isWS, Bool.or_eq_true, beq_iff_eq] at hne
  rcases hne with ((((rfl | rfl) | rfl) | rfl) | rfl) | rfl <;> exact absurd h (by decide)

theorem isOpenSkip_false_of_word (c : Char) (h : isWordChar c = true) :
    isOpenSkip c = false := by
  by_contra hne
  rw [Bool.not_eq_false] at hne
  simp only [isOpenSkip, Bool.or_eq_true, beq_iff_eq] at hne
  rcases hne with (hws | rfl) | rfl
  · rw [isWS_false_of_word c h] at hws
    exact Bool.false_ne_true hws
  · exact absurd h (by decide)
  · exact absurd h (by decide)

theorem toLower_ne_of_word (c : Char) (h : isWordChar c = true) :
    Char.toLower c ≠ '♪' ∧ Char.toLower c ≠ '♫' := by
  unfold Char.toLower
  by_cases hr : c.toNat ≥ 65 ∧ c.toNat ≤ 90
  · rw [if_pos hr]
    obtain ⟨h65, h90⟩ := hr
    generalize c.toNat = n at h65 h90
    interval_cases n <;> exact ⟨by decide, by decide⟩
  · rw [if_neg hr]
    constructor
    · intro heq
      rw [heq] at h
      exact absurd h (by decide)
    · intro heq
      rw [heq] at h
      exact absurd h (by decide)

/-- A single-character string made of a non-skip character matches none of
the anchored keyword patterns whose keywords are either at least two
characters long or single characters differing from it case-insensitively. -/
theorem patternMatch_single_false (kws : List String) (c : Char)
    (hopen : isOpenSkip c = false)
    (hks : ∀ k ∈ kws, (∃ k1 k2 ks, k.data = k1 :: k2 :: ks)
      ∨ (∃ k1, k.data = [k1] ∧ Char.toLower k1 ≠ Char.toLower c)) :
    patternMatch kws (String.mk [c]) = false := by
  simp only [patternMatch]
  have hbody : ([c].dropWhile isOpenSkip) = [c] := by
    rw [List.dropWhile_cons, hopen]
    simp
  rw [hbody, List.any_eq_false]
  intro k hk
  rcases hks k hk with ⟨k1, k2, ks, hkd⟩ | ⟨k1, hkd, hne⟩
  · rw [hkd]
    simp only [matchCI]
    split
    · rename_i heq
      split at heq <;> exact absurd heq (by simp)
    · simp
  · rw [hkd]
    simp only [matchCI]
    split
    · rename_i heq
      rw [if_neg hne] at heq
      exact absurd heq (by simp)
    · simp

/-- C8 counterexample: the single-character space-delimited text "a"
(cleaned to "a", length 1 < 2) is KEPT by the sanitizer: there is no
2-character minimum for space-delimited mode in the code (the skip test
does not even receive the mode flag). -/
theorem C8_counterexample :
    shouldSkipSegment (cleanText cfgDefault "a") = false
      ∧ (cleanText cfgDefault "a").length < 2 := by
  constructor
  · have h : cleanText cfgDefault "a" = "a" := by decide
    rw [h]
    decide
  · have h : cleanText cfgDefault "a" = "a" := by decide
    rw [h]
    decide

/-- C8 amended: the sanitizer's length minimum is 1 character in both
modes: any single word character other than the underscore is kept (the
skip predicate is mode-independent); the claimed 2-character minimum for
space-delimited mode does not exist. -/
theorem C8_amended (c : Char) (hw : isWordChar c = true) (hu : c ≠ '_') :
    shouldSkipSegment (String.mk [c]) = false := by
  have hws : isWS c = false := isWS_false_of_word c hw
  have hopen : isOpenSkip c = false := isOpenSkip_false_of_word c hw
  obtain ⟨hm1, hm2⟩ := toLower_ne_of_word c hw
  have hmusic : patternMatch musicKeywords (String.mk [c]) = false := by
    apply patternMatch_single_false musicKeywords c hopen
    intro k hk
    simp only [musicKeywords, List.mem_cons, List.not_mem_nil, or_false] at hk
    rcases hk with rfl | rfl | rfl | rfl | rfl | rfl
    · right
      refine ⟨'♪', rfl, ?_⟩
      rw [show ('♪' : Char).toLower = '♪' by decide]
      exact fun h => hm1 h.symm
    · right
      refine ⟨'♫', rfl, ?_⟩
      rw [show ('♫' : Char).toLower = '♫' by decide]
      exact fun h => hm2 h.symm
    · exact Or.inl ⟨'m', 'u', _, rfl⟩
    · exact Or.inl ⟨'m', 'ú', _, rfl⟩
    · exact Or.inl ⟨'音', '楽', _, rfl⟩
    · exact Or.inl ⟨'音', '乐', _, rfl⟩
  have hnoise : patternMatch noiseKeywords (String.mk [c]) = false := by
    apply patternMatch_single_false noiseKeywords c hopen
    intro k hk
    simp only [noiseKeywords, List.mem_cons, List.not_mem_nil, or_false] at hk
    rcases hk with rfl | rfl | rfl | rfl | rfl | rfl
    · exact Or.inl ⟨'n', 'o', _, rfl⟩
    · exact Or.inl ⟨'s', 't', _, rfl⟩
    · exact Or.inl ⟨'s', 'i', _, rfl⟩
    · exact Or.inl ⟨'i', 'n', _, rfl⟩
    · exact Or.inl ⟨'u', 'n', _, rfl⟩
    · exact Or.inl ⟨'不', '清', _, rfl⟩
  have hstrip : stripChars [c] = [c] := by
    simp [stripChars, List.dropWhile_cons, hws]
  have hempty : (String.mk [c] == "") = false := by
    rw [beq_eq_false_iff_ne]
    intro heq
    have h2 := congrArg String.data heq
    simp at h2
  have hpunct : punctOnly (String.mk [c]) = false := by
    simp only [punctOnly]
    simp [isPunctOnlyChar, hws, hw, hu]
  simp [shouldSkipSegment, hempty, hpunct, hmusic, hnoise, stripStr, hstrip]

/-- Witness for C8 amended: the letter a is kept. -/
theorem C8_amended_witness : shouldSkipSegment (String.mk ['a']) = false :=
  C8_amended 'a' (by decide) (by decide)

theorem roundHalfEven_nonneg (q : ℚ) (h : 0 ≤ q) : 0 ≤ roundHalfEven q := by
  simp only [roundHalfEven]
  have hf : (0 : ℤ) ≤ ⌊q⌋ := Int.floor_nonneg.mpr h
  split
  · exact hf
  · split
    · omega
    · split <;> omega

/-- Half-even rounding lands within half a unit of its argument. -/
theorem roundHalfEven_close (q : ℚ) : |((roundHalfEven q : ℤ) : ℚ) - q| ≤ 1/2 := by
  simp only [roundHalfEven]
  have h1 : (⌊q⌋ : ℚ) ≤ q := Int.floor_le q
  have h2 : q < ⌊q⌋ + 1 := Int.lt_floor_add_one q
  split
  · rename_i hlt
    rw [abs_le]
    constructor <;> linarith
  · rename_i hge
    rw [not_lt] at hge
    split
    · rename_i hgt
      push_cast
      rw [abs_le]
      constructor <;> linarith
    · rename_i hle
      rw [not_lt] at hle
      have hhalf : q - (⌊q⌋ : ℚ) = 1/2 := le_antisymm hle hge
      split
      · rw [abs_le]
        constructor <;> linarith
      · push_cast
        rw [abs_le]
        constructor <;> linarith

/-- C10: timestamp formatting is total on the rationals: it always renders
HH:MM:SS,mmm with zero-padded fields, minutes and seconds below 60 and
milliseconds below 1000, the fields decompose the half-even-rounded
millisecond count of the zero-clamped input (so the rendered time is within
half a millisecond of the clamped input), and every non-positive input
renders as 00:00:00,000, so serialized timestamps are never negative. -/
theorem C10_theorem (q : ℚ) :
    ∃ h m s ms : ℕ,
      formatTimestamp q
          = padZero 2 h ++ ":" ++ padZero 2 m ++ ":" ++ padZero 2 s ++ "," ++ padZero 3 ms
        ∧ m < 60 ∧ s < 60 ∧ ms < 1000
        ∧ ((h * 3600000 + m * 60000 + s * 1000 + ms : ℕ) : ℤ)
            = roundHalfEven (max 0 q * 1000)
        ∧ |((roundHalfEven (max 0 q * 1000) : ℤ) : ℚ) - max 0 q * 1000| ≤ 1/2
        ∧ (q ≤ 0 → formatTimestamp q = "00:00:00,000") := by
  have hnn : (0 : ℚ) ≤ max 0 q * 1000 := mul_nonneg (le_max_left 0 q) (by norm_num)
  have hrnn : 0 ≤ roundHalfEven (max 0 q * 1000) := roundHalfEven_nonneg _ hnn
  refine ⟨(roundHalfEven (max 0 q * 1000)).toNat / 3600000,
    (roundHalfEven (max 0 q * 1000)).toNat % 3600000 / 60000,
    (roundHalfEven (max 0 q * 1000)).toNat % 3600000 % 60000 / 1000,
    (roundHalfEven (max 0 q * 1000)).toNat % 3600000 % 60000 % 1000,
    rfl, by omega, by omega, by omega, ?_, roundHalfEven_close _, ?_⟩
  · have hdecomp : (roundHalfEven (max 0 q * 1000)).toNat / 3600000 * 3600000
        + (roundHalfEven (max 0 q * 1000)).toNat % 3600000 / 60000 * 60000
        + (roundHalfEven (max 0 q * 1000)).toNat % 3600000 % 60000 / 1000 * 1000
        + (roundHalfEven (max 0 q * 1000)).toNat % 3600000 % 60000 % 1000
        = (roundHalfEven (max 0 q * 1000)).toNat := by omega
    rw [hdecomp]
    exact Int.toNat_of_nonneg hrnn
  · intro hq
    have hmax : max 0 q = 0 := max_eq_left hq
    have hr0 : roundHalfEven (max 0 q * 1000) = 0 := by
      rw [hmax, zero_mul]
      norm_num [roundHalfEven]
    simp only [formatTimestamp, hr0]
    rfl

/-- Witness for C10: a negative input renders as the zero timestamp. -/
theorem C10_witness : formatTimestamp (-1) = "00:00:00,000" := by
  obtain ⟨h, m, s, ms, _, _, _, _, _, _, hneg⟩ := C10_theorem (-1)
  exact hneg (by simp)
